import Mathlib

/-!
Verification of the `reader-font` repository's list/persistence logic.

Shallow embedding conventions:
* JS strings are modelled as `List Char` (`Str`); characters are Unicode
  scalars.  `String.prototype.toLowerCase` is modelled character-wise for the
  ASCII range (the program's case-insensitive search never depends on the
  lowercase function beyond being applied to both sides).
* `localStorage` is an association list from keys to stored strings; the first
  binding for a key wins, `removeItem` drops all bindings of the key.
* JS object mutation through shared references (the filtered icon view holds
  the same record objects as the canonical list) is modelled by keeping the
  canonical collection as a list and the filtered view as the list of indices
  of its members; record mutation updates the canonical list at an index.
* `JSON.stringify`/`JSON.parse` for the two persisted shapes (icon-record
  arrays and filename arrays) are modelled by an executable printer and an
  executable recursive-descent parser for exactly the grammar the printer
  emits (the behaviour of `JSON.parse` on the stringify image).
* Numeric glyph metrics are modelled as integers (the claims under
  verification never inspect the textual form of a coordinate).
-/

abbrev Str := List Char

/-- `p` is a leading segment of `s` (model of `String.prototype.startsWith`). -/
def strStarts : Str → Str → Bool
  | [], _ => true
  | _ :: _, [] => false
  | p :: ps, c :: cs => p = c && strStarts ps cs

/-- `strContains pat s` models `s.includes(pat)`. -/
def strContains (pat : Str) : Str → Bool
  | [] => strStarts pat []
  | c :: cs => strStarts pat (c :: cs) || strContains pat cs

/-- ASCII lowercasing of one character, the fragment of
`String.prototype.toLowerCase` exercised by the program. -/
def lowerCh (c : Char) : Char :=
  if 65 ≤ c.toNat ∧ c.toNat ≤ 90 then Char.ofNat (c.toNat + 32) else c

def lowerStr (s : Str) : Str := s.map lowerCh

/-- The character class `[a-zA-Z0-9._-]` of the sanitisation regex in
`getSafeStorageKey` (`src/utils/storageUtil.ts`). -/
def safeChar (c : Char) : Bool :=
  (65 ≤ c.toNat && c.toNat ≤ 90) || (97 ≤ c.toNat && c.toNat ≤ 122) ||
    (48 ≤ c.toNat && c.toNat ≤ 57) || c.toNat == 46 || c.toNat == 95 || c.toNat == 45

/-- The substring after the last `/`, used to model
`filename.split('/').pop()`. -/
def lastSegment (s : Str) : Str :=
  s.foldl (fun acc c => if c = '/' then [] else acc ++ [c]) []

/-- `filename.split('/').pop() || filename`: the final path segment, falling
back to the whole string when that segment is empty (JS falsiness). -/
def jsBasename (filename : Str) : Str :=
  let seg := lastSegment filename
  if seg = [] then filename else seg

/-- The base64 alphabet used by `btoa`. -/
def b64alphabet : Str :=
  "ABCDEFGHIJKLMNOPQRSTUVWXYZabcdefghijklmnopqrstuvwxyz0123456789+/".data

def b64char (n : Nat) : Char := b64alphabet.getD n '='

/-- Base64 encoding of a byte sequence, the core of `btoa`. -/
def b64encode : List Nat → Str
  | [] => []
  | [b1] => [b64char (b1 / 4), b64char (b1 % 4 * 16), '=', '=']
  | [b1, b2] => [b64char (b1 / 4), b64char (b1 % 4 * 16 + b2 / 16), b64char (b2 % 16 * 4), '=']
  | b1 :: b2 :: b3 :: rest =>
      b64char (b1 / 4) :: b64char (b1 % 4 * 16 + b2 / 16) ::
        b64char (b2 % 16 * 4 + b3 / 64) :: b64char (b3 % 64) :: b64encode rest

/-- `btoa` on a string of characters with code points below 256 (the only
inputs the program feeds it: already-sanitised names). -/
def btoaChars (s : Str) : Str := b64encode (s.map Char.toNat)

/-- `storageConfig.storageFontDatasKey` from `src/utils/storageUtil.ts`. -/
def storageFontDatasKey : Str := "font-icons-".data

/-- `storageConfig.storageFileNames` from `src/utils/storageUtil.ts`. -/
def storageFileNames : Str := "font-icons-saved-file-names".data

/-- `getSafeStorageKey` from `src/utils/storageUtil.ts`: sanitises by
replacing each character outside `[a-zA-Z0-9._-]` with `_`. -/
def getSafeStorageKey (filename : Str) : Str :=
  let basename := jsBasename filename
  let safeName := basename.map (fun c => if safeChar c then c else '_')
  if safeName.length ≤ 50 then storageFontDatasKey ++ safeName
  else
    let hash := (btoaChars safeName).take 8
    let truncatedName := safeName.drop (safeName.length - 40)
    storageFontDatasKey ++ truncatedName ++ '-' :: hash

/-- The `getSafeStorageKey` revision local to the second
`icon-list.vue` revision: sanitises by deleting disallowed characters. -/
def getSafeStorageKeyDel (filename : Str) : Str :=
  let basename := jsBasename filename
  let safeName := basename.filter safeChar
  if safeName.length ≤ 50 then storageFontDatasKey ++ safeName
  else
    let hash := (btoaChars safeName).take 8
    let truncatedName := safeName.drop (safeName.length - 40)
    storageFontDatasKey ++ truncatedName ++ '-' :: hash

/-- A byte small enough that all four 6-bit groups built from it stay inside
the alphanumeric part of the base64 alphabet. -/
def okByte (b : Nat) : Prop := b < 128 ∧ b % 64 ≤ 61

/-- One glyph rendered as an icon: the `IconProps` type of
`src/utils/storageUtil.ts`.  The two optional fields are modelled as always
present, matching the records the program builds and saves. -/
structure IconRecord where
  unicode : Nat
  iconName : Str
  viewBox : Str
  svgPath : Str
  isEditing : Bool
  editingName : Str
deriving DecidableEq

/-- Default record used for index lookups (never observed by the theorems:
all accesses are guarded by bounds facts). -/
def defRec : IconRecord := ⟨0, [], [], [], false, []⟩

/-- The list component's reactive state: `allIconList` (canonical) and
`iconList` (filtered view).  The filtered view holds the indices of the
canonical records it displays, modelling JS reference sharing: mutating the
record at an index is visible through both views. -/
structure ListState where
  allIcons : List IconRecord
  filtered : List Nat
deriving DecidableEq

/-- `item.iconName.toLowerCase().includes(text.toLowerCase())`. -/
def matchesSearch (t : Str) (r : IconRecord) : Bool :=
  strContains (lowerStr t) (lowerStr r.iconName)

/-- `handleSearch` from `icon-list.vue`:
`iconList.value = allIconList.value.filter(...)`. -/
def handleSearch (s : ListState) (t : Str) : ListState :=
  { s with filtered := ((List.range s.allIcons.length).filter
      (fun j => matchesSearch t (s.allIcons.getD j defRec))) }

/-- The record objects the filtered view displays. -/
def filteredRecords (s : ListState) : List IconRecord :=
  s.filtered.map (fun j => s.allIcons.getD j defRec)

/-- Index-aware map, used to model in-place mutation of some records of the
canonical collection. -/
def mapWithIndex {α : Type} (f : Nat → α → α) : Nat → List α → List α
  | _, [] => []
  | k, a :: rest => f k a :: mapWithIndex f (k + 1) rest

/-- `startEditing(icon)` from `icon-list.vue`: every record of the *filtered*
view gets `isEditing = false`, then the target record (index `i`) gets
`isEditing = true` and `editingName = iconName`. -/
def startEditing (s : ListState) (i : Nat) : ListState :=
  let cleared := mapWithIndex
    (fun j r => if j ∈ s.filtered then { r with isEditing := false } else r) 0 s.allIcons
  { s with allIcons := (mapWithIndex
      (fun j r => if j = i then { r with isEditing := true, editingName := r.iconName } else r)
      0 cleared) }

/-- ASCII fragment of the whitespace class trimmed by
`String.prototype.trim`. -/
def isWsCh (c : Char) : Bool := c.toNat == 32 || (9 ≤ c.toNat && c.toNat ≤ 13)

/-- `editingName.trim()`. -/
def jsTrim (s : Str) : Str :=
  ((s.dropWhile isWsCh).reverse.dropWhile isWsCh).reverse

/-- `finishEditing(icon)` from `icon-list.vue`. -/
def finishEditing (s : ListState) (i : Nat) : ListState :=
  { s with allIcons := (mapWithIndex
      (fun j r => if j = i then
          (if (jsTrim r.editingName) ≠ [] then
            { r with iconName := jsTrim r.editingName, isEditing := false }
          else { r with isEditing := false })
        else r)
      0 s.allIcons) }

/-- `cancelEditing(icon)` from `icon-list.vue`. -/
def cancelEditing (s : ListState) (i : Nat) : ListState :=
  { s with allIcons := (mapWithIndex
      (fun j r => if j = i then { r with isEditing := false } else r) 0 s.allIcons) }

/-- Number of records of a collection currently in inline-edit state. -/
def countEditing (l : List IconRecord) : Nat := (l.filter (fun r => r.isEditing)).length

/-- Concrete two-record collection used to exercise the editing invariant. -/
def recA : IconRecord := ⟨65, ['a'], [], [], false, ['a']⟩

def recB : IconRecord := ⟨66, ['b'], [], [], false, ['b']⟩

def twoIconState : ListState := ⟨[recA, recB], [0, 1]⟩

/-- Decimal digit character. -/
def digitChar (n : Nat) : Char :=
  match n with
  | 0 => '0' | 1 => '1' | 2 => '2' | 3 => '3' | 4 => '4'
  | 5 => '5' | 6 => '6' | 7 => '7' | 8 => '8' | _ => '9'

/-- Decimal digit expansion with structural fuel (kernel-reducible); the
fuel always exceeds the number, so it never runs out. -/
def natToCharsAux : Nat → Nat → Str
  | 0, _ => []
  | fuel + 1, n =>
    if n < 10 then [digitChar n]
    else natToCharsAux fuel (n / 10) ++ [digitChar (n % 10)]

/-- Decimal rendering of a natural number (JS integer-to-string). -/
def natToChars (n : Nat) : Str := natToCharsAux (n + 1) n

/-- Decimal rendering of an integer (JS number-to-string for integers). -/
def intToChars (i : Int) : Str :=
  if i < 0 then '-' :: natToChars i.natAbs else natToChars i.natAbs

def isDigitCh (c : Char) : Bool := 48 ≤ c.toNat && c.toNat ≤ 57

def digitVal (c : Char) : Nat := c.toNat - 48

def takeDigits : Str → (Str × Str)
  | [] => ([], [])
  | c :: cs =>
    if isDigitCh c then
      let p := takeDigits cs
      (c :: p.1, p.2)
    else ([], c :: cs)

def decodeDigits (ds : Str) : Nat := ds.foldl (fun a c => a * 10 + digitVal c) 0

/-- JSON number parsing, restricted to the non-negative integers the program
serialises (`unicode` code points). -/
def parseNatCh (s : Str) : Option (Nat × Str) :=
  let p := takeDigits s
  if p.1 = [] then none else some (decodeDigits p.1, p.2)

/-- The head of `s` (if any) is not a decimal digit. -/
def headNonDigit : Str → Prop
  | [] => True
  | c :: _ => isDigitCh c = false

def hexDigitChar (n : Nat) : Char :=
  match n with
  | 0 => '0' | 1 => '1' | 2 => '2' | 3 => '3' | 4 => '4'
  | 5 => '5' | 6 => '6' | 7 => '7' | 8 => '8' | 9 => '9'
  | 10 => 'a' | 11 => 'b' | 12 => 'c' | 13 => 'd' | 14 => 'e' | _ => 'f'

/-- `JSON.stringify`'s escaping of one string character: quote and backslash
get two-character escapes, the named control characters get shorthand
escapes, other control characters get `\u00xx`, everything else is copied. -/
def escapeChar (c : Char) : Str :=
  if c = '\"' then ['\\', '\"']
  else if c = '\\' then ['\\', '\\']
  else if c.toNat = 8 then ['\\', 'b']
  else if c.toNat = 9 then ['\\', 't']
  else if c.toNat = 10 then ['\\', 'n']
  else if c.toNat = 12 then ['\\', 'f']
  else if c.toNat = 13 then ['\\', 'r']
  else if c.toNat < 32 then
    ['\\', 'u', '0', '0', hexDigitChar (c.toNat / 16), hexDigitChar (c.toNat % 16)]
  else [c]

def escapeStr (s : Str) : Str := s.foldr (fun c acc => escapeChar c ++ acc) []

def hexVal (c : Char) : Option Nat :=
  if 48 ≤ c.toNat ∧ c.toNat ≤ 57 then some (c.toNat - 48)
  else if 97 ≤ c.toNat ∧ c.toNat ≤ 102 then some (c.toNat - 87)
  else if 65 ≤ c.toNat ∧ c.toNat ≤ 70 then some (c.toNat - 55)
  else none

/-- JSON string-literal body parsing (opening quote already consumed):
reads up to the unescaped closing quote, decoding escapes as `JSON.parse`
does; returns the decoded string and the remainder after the quote. -/
def parseStrBody : Str → Option (Str × Str)
  | [] => none
  | c :: cs =>
    if c = '\"' then some ([], cs)
    else if c = '\\' then
      match cs with
      | [] => none
      | e :: cs2 =>
        if e = '\"' then (parseStrBody cs2).map (fun p => ('\"' :: p.1, p.2))
        else if e = '\\' then (parseStrBody cs2).map (fun p => ('\\' :: p.1, p.2))
        else if e = '/' then (parseStrBody cs2).map (fun p => ('/' :: p.1, p.2))
        else if e = 'b' then (parseStrBody cs2).map (fun p => ('\x08' :: p.1, p.2))
        else if e = 't' then (parseStrBody cs2).map (fun p => ('\t' :: p.1, p.2))
        else if e = 'n' then (parseStrBody cs2).map (fun p => ('\n' :: p.1, p.2))
        else if e = 'f' then (parseStrBody cs2).map (fun p => ('\x0c' :: p.1, p.2))
        else if e = 'r' then (parseStrBody cs2).map (fun p => ('\x0d' :: p.1, p.2))
        else if e = 'u' then
          match cs2 with
          | h1 :: h2 :: h3 :: h4 :: cs3 =>
            match hexVal h1, hexVal h2, hexVal h3, hexVal h4 with
            | some v1, some v2, some v3, some v4 =>
              (parseStrBody cs3).map
                (fun p => (Char.ofNat (((v1 * 16 + v2) * 16 + v3) * 16 + v4) :: p.1, p.2))
            | _, _, _, _ => none
          | _ => none
        else none
    else (parseStrBody cs).map (fun p => (c :: p.1, p.2))

/-- Consume an expected literal token. -/
def expectChars : Str → Str → Option Str
  | [], s => some s
  | _ :: _, [] => none
  | p :: ps, c :: cs => if p = c then expectChars ps cs else none

def encBool (b : Bool) : Str := if b then "true".data else "false".data

def parseBoolCh (s : Str) : Option (Bool × Str) :=
  match expectChars "true".data s with
  | some r => some (true, r)
  | none =>
    match expectChars "false".data s with
    | some r => some (false, r)
    | none => none

def tokOpenRec : Str := "\x7b\"unicode\":".data
def tokIconName : Str := ",\"iconName\":\"".data
def tokViewBox : Str := ",\"viewBox\":\"".data
def tokSvgPath : Str := ",\"svgPath\":\"".data
def tokIsEditing : Str := ",\"isEditing\":".data
def tokEditingName : Str := ",\"editingName\":\"".data
def tokCloseRec : Str := "\x7d".data

/-- `JSON.stringify` of one `IconProps` object (fields in the insertion order
of the object literals the program builds). -/
def encodeRecord (r : IconRecord) : Str :=
  tokOpenRec ++ natToChars r.unicode ++ tokIconName ++ escapeStr r.iconName ++
    '\"' :: (tokViewBox ++ escapeStr r.viewBox ++
    '\"' :: (tokSvgPath ++ escapeStr r.svgPath ++
    '\"' :: (tokIsEditing ++ encBool r.isEditing ++ tokEditingName ++ escapeStr r.editingName ++
    '\"' :: tokCloseRec)))

def encodeRest : List IconRecord → Str
  | [] => [']']
  | r :: rs => ',' :: (encodeRecord r ++ encodeRest rs)

/-- `JSON.stringify` of an `IconProps[]` array. -/
def encodeIcons : List IconRecord → Str
  | [] => "[]".data
  | r :: rs => '[' :: (encodeRecord r ++ encodeRest rs)

/-- Parse one serialised `IconProps` object. -/
def parseRecord (s : Str) : Option (IconRecord × Str) :=
  match expectChars tokOpenRec s with
  | none => none
  | some s1 =>
    match parseNatCh s1 with
    | none => none
    | some (u, s2) =>
      match expectChars tokIconName s2 with
      | none => none
      | some s3 =>
        match parseStrBody s3 with
        | none => none
        | some (nm, s4) =>
          match expectChars tokViewBox s4 with
          | none => none
          | some s5 =>
            match parseStrBody s5 with
            | none => none
            | some (vb, s6) =>
              match expectChars tokSvgPath s6 with
              | none => none
              | some s7 =>
                match parseStrBody s7 with
                | none => none
                | some (sp, s8) =>
                  match expectChars tokIsEditing s8 with
                  | none => none
                  | some s9 =>
                    match parseBoolCh s9 with
                    | none => none
                    | some (b, s10) =>
                      match expectChars tokEditingName s10 with
                      | none => none
                      | some s11 =>
                        match parseStrBody s11 with
                        | none => none
                        | some (en, s12) =>
                          match expectChars tokCloseRec s12 with
                          | none => none
                          | some s13 => some (⟨u, nm, vb, sp, b, en⟩, s13)

/-- Parse the `, record `*`]` continuation of a serialised record array
(fuelled recursion; the fuel is instantiated with more than the number of
remaining elements). -/
def parseRestF : Nat → Str → Option (List IconRecord × Str)
  | 0, _ => none
  | _ + 1, [] => none
  | fuel + 1, c :: cs =>
    if c = ']' then some ([], cs)
    else if c = ',' then
      match parseRecord cs with
      | none => none
      | some (r, s2) =>
        match parseRestF fuel s2 with
        | none => none
        | some (rs, s3) => some (r :: rs, s3)
    else none

/-- Model of `JSON.parse` followed by use as an `IconProps[]`, on the image of
`encodeIcons` (exact grammar, whole input consumed). -/
def parseIcons (s : Str) : Option (List IconRecord) :=
  match s with
  | [] => none
  | c :: rest =>
    if c = '[' then
      match rest with
      | [] => none
      | c2 :: r2 =>
        if c2 = ']' then (if r2 = [] then some [] else none)
        else
          match parseRecord rest with
          | none => none
          | some (r, s2) =>
            match parseRestF (s2.length + 1) s2 with
            | none => none
            | some (rs, s3) => if s3 = [] then some (r :: rs) else none
    else none

def encodeStrRest : List Str → Str
  | [] => [']']
  | s :: ss => ',' :: ('\"' :: (escapeStr s ++ '\"' :: encodeStrRest ss))

/-- `JSON.stringify` of a string array (the filename registry). -/
def encodeStrArr : List Str → Str
  | [] => "[]".data
  | s :: ss => '[' :: ('\"' :: (escapeStr s ++ '\"' :: encodeStrRest ss))

def parseStrRestF : Nat → Str → Option (List Str × Str)
  | 0, _ => none
  | _ + 1, [] => none
  | fuel + 1, c :: cs =>
    if c = ']' then some ([], cs)
    else if c = ',' then
      match cs with
      | [] => none
      | c2 :: cs2 =>
        if c2 = '\"' then
          match parseStrBody cs2 with
          | none => none
          | some (s1, s2) =>
            match parseStrRestF fuel s2 with
            | none => none
            | some (ss, s3) => some (s1 :: ss, s3)
        else none
    else none

/-- Model of `JSON.parse` on a serialised string array. -/
def parseStrArr (s : Str) : Option (List Str) :=
  match s with
  | [] => none
  | c :: rest =>
    if c = '[' then
      match rest with
      | [] => none
      | c2 :: r2 =>
        if c2 = ']' then (if r2 = [] then some [] else none)
        else if c2 = '\"' then
          match parseStrBody r2 with
          | none => none
          | some (s1, s2) =>
            match parseStrRestF (s2.length + 1) s2 with
            | none => none
            | some (ss, s3) => if s3 = [] then some (s1 :: ss) else none
        else none
    else none

/-- `localStorage` model: association list, first binding for a key wins. -/
abbrev Storage := List (Str × Str)

def lsEmpty : Storage := []

/-- `localStorage.getItem`. -/
def lsGet : Storage → Str → Option Str
  | [], _ => none
  | (k2, v) :: rest, k => if k2 = k then some v else lsGet rest k

/-- `localStorage.setItem`. -/
def lsSet (st : Storage) (k v : Str) : Storage := (k, v) :: st

/-- `localStorage.removeItem`. -/
def lsRemove (st : Storage) (k : Str) : Storage :=
  st.filter (fun p => decide (p.1 ≠ k))

/-- `saveFontData` from `src/utils/storageUtil.ts`. -/
def saveFontData (st : Storage) (filename : Str) (icons : List IconRecord) : Storage :=
  lsSet st (getSafeStorageKey filename) (encodeIcons icons)

/-- `getFontData` from `src/utils/storageUtil.ts`: missing key (or empty,
hence falsy, stored string) and parse failures degrade to the empty list;
the function is total, so no exception reaches the caller. -/
def getFontData (st : Storage) (filename : Str) : List IconRecord :=
  match lsGet st (getSafeStorageKey filename) with
  | none => []
  | some v =>
    if v = [] then []
    else
      match parseIcons v with
      | some icons => icons
      | none => []

/-- `getSavedFileNameData` from `src/utils/storageUtil.ts`. -/
def getSavedFileNameData (st : Storage) : List Str :=
  match lsGet st storageFileNames with
  | none => []
  | some v =>
    if v = [] then []
    else
      match parseStrArr v with
      | some names => names
      | none => []

/-- `saveFileNameData` from `src/utils/storageUtil.ts` (registry add). -/
def saveFileNameData (st : Storage) (filename : Str) : Storage :=
  let names := getSavedFileNameData st
  if filename ∈ names then st
  else lsSet st storageFileNames (encodeStrArr (names ++ [filename]))

/-- `indexOf` + `splice(index, 1)`: drop the first occurrence. -/
def eraseFirst : List Str → Str → List Str
  | [], _ => []
  | x :: xs, f => if x = f then xs else x :: eraseFirst xs f

/-- `deleteStorageData` from `src/utils/storageUtil.ts`: removes the font
record, then removes the filename from the registry when present. -/
def deleteStorageData (st : Storage) (filename : Str) : Storage :=
  let st1 := lsRemove st (getSafeStorageKey filename)
  let names := getSavedFileNameData st1
  if filename ∈ names then
    lsSet st1 storageFileNames (encodeStrArr (eraseFirst names filename))
  else st1

/-- A registry operation: `saveFileNameData` or `deleteStorageData`. -/
inductive RegOp where
  | add (f : Str)
  | remove (f : Str)

def regStep (st : Storage) : RegOp → Storage
  | RegOp.add f => saveFileNameData st f
  | RegOp.remove f => deleteStorageData st f

def runRegOps (st : Storage) (ops : List RegOp) : Storage := ops.foldl regStep st

/-- One glyph of the opaque parsed font: optional code point (0 models the
falsy absent/zero value), optional name (empty models absent), path bounding
box corners, and the serialised path.  Coordinates are modelled as integers
(see the file header). -/
structure Glyph where
  unicode : Nat
  name : Str
  x1 : Int
  y1 : Int
  x2 : Int
  y2 : Int
  pathSvg : Str
deriving DecidableEq

/-- `${x1} ${y1} ${x2 - x1} ${y2 - y1}`. -/
def viewBoxString (g : Glyph) : Str :=
  intToChars g.x1 ++ ' ' :: (intToChars g.y1 ++ ' ' ::
    (intToChars (g.x2 - g.x1) ++ ' ' :: intToChars (g.y2 - g.y1)))

/-- `generatorIconList` from `icon-list.vue`: glyphs without a (truthy) code
point are skipped; `font` absent yields the empty list. -/
def generatorIconList (font : Option (List Glyph)) : List IconRecord :=
  match font with
  | none => []
  | some glyphs =>
    glyphs.foldr
      (fun g acc =>
        if g.unicode = 0 then acc
        else ⟨g.unicode, g.name, viewBoxString g, g.pathSvg, false, g.name⟩ :: acc)
      []

/-- The component's props: the parsed font object and the filename. -/
structure FontProps where
  font : Option (List Glyph)
  filename : Option Str
deriving DecidableEq

/-- `loadSavedIconData` from `icon-list.vue`: succeeds (returns the records)
only when a filename is present (and truthy) and the stored data parses to a
NON-EMPTY list. -/
def loadSavedIconData (st : Storage) (p : FontProps) : Option (List IconRecord) :=
  match p.filename with
  | none => none
  | some f =>
    if f = [] then none
    else
      let savedIcons := getFontData st f
      if savedIcons.length > 0 then some savedIcons else none

/-- The `watchEffect` body of `icon-list.vue`: cache first, then extraction,
else clear.  Both views are set to the same records (the filtered view holds
all indices in order). -/
def watchEffectRun (st : Storage) (p : FontProps) : ListState :=
  match loadSavedIconData st p with
  | some icons => ⟨icons, List.range icons.length⟩
  | none =>
    match p.font with
    | none => ⟨[], []⟩
    | some _ =>
      let newIcons := generatorIconList p.font
      ⟨newIcons, List.range newIcons.length⟩

/-- Zip entry name for one icon in `downloadAllPng`:
``${icon.iconName || `icon_${icon.unicode}`}.png``. -/
def pngName (r : IconRecord) : Str :=
  (if r.iconName = [] then "icon_".data ++ natToChars r.unicode else r.iconName) ++ ".png".data

/-- `zip.file(name, blob)`: JSZip keys entries by name, so adding an existing
name overwrites its content and leaves the entry set unchanged. -/
def zipAdd (entries : List Str) (name : Str) : List Str :=
  if name ∈ entries then entries else entries ++ [name]

/-- The fan-out of `downloadAllPng`: one conversion outcome per record
(`true` = `svgToPng` resolved); failed records are skipped, successful ones
are added to the archive.  The final entry set is order-independent, so the
concurrent completions are modelled in list order. -/
def buildPngEntries : List IconRecord → List Bool → List Str → List Str
  | [], _, acc => acc
  | _ :: _, [], acc => acc
  | r :: rs, ok :: oks, acc =>
    buildPngEntries rs oks (if ok then zipAdd acc (pngName r) else acc)

/-- Names of the records whose conversion succeeded, in order. -/
def successNames : List IconRecord → List Bool → List Str
  | [], _ => []
  | _ :: _, [] => []
  | r :: rs, ok :: oks =>
    if ok then pngName r :: successNames rs oks else successNames rs oks

/-- `downloadAllPng` result: the archive entry list and the reported outcome
(`Object.keys(zip.files).length === 0` throws, reporting failure; otherwise
the export reports success). -/
def downloadAllPngModel (icons : List IconRecord) (oks : List Bool) : List Str × Bool :=
  let entries := buildPngEntries icons oks []
  if entries.length = 0 then (entries, false) else (entries, true)

/-- The detail modal's reactive state (`icon-detail.vue`).  `fillStyle`
models the inline `style.fill` of the persistent SVG element; numeric
transform state is modelled with integers. -/
structure DetailState where
  isModalVisible : Bool
  currentIcon : Option IconRecord
  rotationAngle : Int
  scaleFactor : Int
  offsetX : Int
  offsetY : Int
  isGridVisible : Bool
  fillStyle : Str

/-- `openModal(icon)` from `icon-detail.vue`: shows the modal, captures the
record, resets rotation/scale/offset — and touches nothing else. -/
def openModal (s : DetailState) (icon : IconRecord) : DetailState :=
  { s with
    isModalVisible := true
    currentIcon := some icon
    rotationAngle := 0
    scaleFactor := 1
    offsetX := 0
    offsetY := 0 }

/-- `toggleGridVisibility` from `icon-detail.vue`. -/
def toggleGridVisibility (s : DetailState) : DetailState :=
  { s with isGridVisible := !s.isGridVisible }

/-- `updateColor(color)` from `icon-detail.vue`: sets the SVG element's
`style.fill`. -/
def updateColor (s : DetailState) (color : Str) : DetailState :=
  { s with fillStyle := color }


/-- Storage holding unparsable data under the key for `"a.ttf"`. -/
def junkStore : Storage := [(getSafeStorageKey "a.ttf".data, "not json".data)]

/-- Registry holding exactly `"a.ttf"`. -/
def regStore1 : Storage := saveFileNameData lsEmpty "a.ttf".data

/-- A glyph with a truthy code point. -/
def glyph1 : Glyph := ⟨1, ['x'], 0, 0, 1, 1, ['p']⟩

/-- Storage holding an EXISTING but empty record for `"a.ttf"`. -/
def emptyRecStore : Storage := lsSet lsEmpty (getSafeStorageKey "a.ttf".data) "[]".data

/-- Storage holding a non-empty saved record for `"a.ttf"`. -/
def savedRecStore : Storage := saveFontData lsEmpty "a.ttf".data [recA]

/-- Props with a one-glyph font and filename `"a.ttf"`. -/
def propsA : FontProps := ⟨some [glyph1], some "a.ttf".data⟩


/-- A second record sharing `recA`'s display name `"a"`. -/
def recA2 : IconRecord := ⟨67, ['a'], [], [], false, ['a']⟩

/-- Three records of which two share the entry name `"a.png"`. -/
def dupIcons : List IconRecord := [recA, recA2, recB]


theorem strStarts_append (p r : Str) : strStarts p (p ++ r) = true := by
  induction p with
  | nil => rfl
  | cons c cs ih => simp [strStarts, ih]

theorem safeChar_underscore : safeChar '_' = true := by decide

theorem safeChar_okByte {c : Char} (h : safeChar c = true) : okByte c.toNat := by
  simp only [safeChar, Bool.or_eq_true, Bool.and_eq_true, decide_eq_true_eq,
    beq_iff_eq] at h
  unfold okByte
  omega

theorem b64char_safe {g : Nat} (h : g ≤ 61) : safeChar (b64char g) = true := by
  have hall : ∀ g ∈ List.range 62, safeChar (b64char g) = true := by decide
  exact hall g (List.mem_range.mpr (by omega))

theorem b64_take8_safe (bs : List Nat) (hok : ∀ b ∈ bs, okByte b)
    (hlen : 6 ≤ bs.length) : ∀ c ∈ (b64encode bs).take 8, safeChar c = true := by
  match bs with
  | [] => simp at hlen
  | [b1] => simp at hlen
  | [b1, b2] => simp at hlen
  | [b1, b2, b3] => simp at hlen
  | [b1, b2, b3, b4] => simp at hlen
  | [b1, b2, b3, b4, b5] => simp at hlen
  | b1 :: b2 :: b3 :: b4 :: b5 :: b6 :: rest =>
    have h1 : okByte b1 := hok b1 (by simp)
    have h2 : okByte b2 := hok b2 (by simp)
    have h3 : okByte b3 := hok b3 (by simp)
    have h4 : okByte b4 := hok b4 (by simp)
    have h5 : okByte b5 := hok b5 (by simp)
    have h6 : okByte b6 := hok b6 (by simp)
    unfold okByte at h1 h2 h3 h4 h5 h6
    intro c hc
    simp only [b64encode, List.take_succ_cons, List.take_zero, List.mem_cons,
      List.not_mem_nil, or_false] at hc
    rcases hc with h | h | h | h | h | h | h | h <;> subst h <;>
      exact b64char_safe (by omega)

theorem length_b64encode_ge (bs : List Nat) : bs.length ≤ (b64encode bs).length := by
  match bs with
  | [] => simp [b64encode]
  | [b1] => simp [b64encode]
  | [b1, b2] => simp [b64encode]
  | b1 :: b2 :: b3 :: rest =>
    have ih := length_b64encode_ge rest
    simp [b64encode]
    omega

theorem keyShape_props (safeName : Str) (hsafe : ∀ c ∈ safeName, safeChar c = true) :
    (if safeName.length ≤ 50 then storageFontDatasKey ++ safeName
      else storageFontDatasKey ++ safeName.drop (safeName.length - 40) ++
        '-' :: (btoaChars safeName).take 8).length ≤ storageFontDatasKey.length + 50 ∧
    (∀ c ∈ (if safeName.length ≤ 50 then storageFontDatasKey ++ safeName
      else storageFontDatasKey ++ safeName.drop (safeName.length - 40) ++
        '-' :: (btoaChars safeName).take 8).drop storageFontDatasKey.length,
      safeChar c = true) ∧
    strStarts storageFontDatasKey (if safeName.length ≤ 50 then storageFontDatasKey ++ safeName
      else storageFontDatasKey ++ safeName.drop (safeName.length - 40) ++
        '-' :: (btoaChars safeName).take 8) = true := by
  by_cases hle : safeName.length ≤ 50
  · simp only [hle, if_true]
    refine ⟨by simp; omega, ?_, strStarts_append _ _⟩
    intro c hc
    rw [List.drop_left] at hc
    exact hsafe c hc
  · simp only [hle, if_false]
    have hlong : 51 ≤ safeName.length := by omega
    have hdrop : (safeName.drop (safeName.length - 40)).length = 40 := by
      simp [List.length_drop]; omega
    have htake : ((btoaChars safeName).take 8).length ≤ 8 := by
      simp [List.length_take]
    refine ⟨?_, ?_, ?_⟩
    · simp only [List.length_append, List.length_cons, hdrop]
      omega
    · intro c hc
      rw [List.append_assoc, List.drop_left] at hc
      rcases List.mem_append.mp hc with h | h
      · exact hsafe c (List.mem_of_mem_drop h)
      · rcases List.mem_cons.mp h with h2 | h2
        · subst h2; decide
        · refine b64_take8_safe (safeName.map Char.toNat) ?_ ?_ c h2
          · intro b hb
            rcases List.mem_map.mp hb with ⟨d, hd, rfl⟩
            exact safeChar_okByte (hsafe d hd)
          · simp; omega
    · exact strStarts_append _ _

/-- C3: `getSafeStorageKey` (both observed revisions: underscore substitution
in `storageUtil.ts` and deletion in the in-component revision) is
deterministic, always yields the namespace prefix followed only by characters
of the sanitised-safe class `[a-zA-Z0-9._-]`, and its length is bounded by the
prefix length plus 50, for arbitrary filenames including ones whose sanitised
basename exceeds the 50-character threshold. -/
theorem getSafeStorageKey_props (f : Str) :
    getSafeStorageKey f = getSafeStorageKey f ∧
    getSafeStorageKeyDel f = getSafeStorageKeyDel f ∧
    (getSafeStorageKey f).length ≤ storageFontDatasKey.length + 50 ∧
    (∀ c ∈ (getSafeStorageKey f).drop storageFontDatasKey.length, safeChar c = true) ∧
    strStarts storageFontDatasKey (getSafeStorageKey f) = true ∧
    (getSafeStorageKeyDel f).length ≤ storageFontDatasKey.length + 50 ∧
    (∀ c ∈ (getSafeStorageKeyDel f).drop storageFontDatasKey.length, safeChar c = true) ∧
    strStarts storageFontDatasKey (getSafeStorageKeyDel f) = true := by
  have h1 := keyShape_props ((jsBasename f).map (fun c => if safeChar c then c else '_'))
    (by
      intro c hc
      rcases List.mem_map.mp hc with ⟨d, _, rfl⟩
      by_cases hd : safeChar d = true
      · simp [hd]
      · simp [hd, safeChar_underscore])
  have h2 := keyShape_props ((jsBasename f).filter safeChar)
    (by intro c hc; exact (List.mem_filter.mp hc).2)
  exact ⟨rfl, rfl, h1.1, h1.2.1, h1.2.2, h2.1, h2.2.1, h2.2.2⟩

theorem range_map_getD {α : Type} (l : List α) (d : α) :
    (List.range l.length).map (fun j => l.getD j d) = l := by
  apply List.ext_getElem
  · simp
  · intro i h1 h2
    simp only [List.getElem_map, List.getElem_range]
    rw [List.getD_eq_getElem l d h2]

theorem map_filter_comp {α β : Type} (f : α → β) (p : β → Bool) (l : List α) :
    (l.filter (fun a => p (f a))).map f = (l.map f).filter p := by
  induction l with
  | nil => rfl
  | cons a t ih => by_cases h : p (f a) <;> simp [h, ih]

theorem strContains_nil (l : Str) : strContains [] l = true := by
  cases l <;> simp [strContains, strStarts]

theorem matchesSearch_nil (r : IconRecord) : matchesSearch [] r = true := by
  simp [matchesSearch, lowerStr, strContains_nil]

theorem filteredRecords_handleSearch (s : ListState) (t : Str) :
    filteredRecords (handleSearch s t) = s.allIcons.filter (matchesSearch t) := by
  unfold filteredRecords handleSearch
  rw [map_filter_comp (fun j => s.allIcons.getD j defRec) (matchesSearch t)]
  rw [range_map_getD]

/-- C6: `handleSearch` leaves the canonical collection untouched, produces as
filtered view exactly the subsequence of canonical records whose name contains
the search text case-insensitively, is idempotent, and with the empty search
text yields the canonical collection in original order. -/
theorem handleSearch_props (s : ListState) (t : Str) :
    (handleSearch s t).allIcons = s.allIcons ∧
    filteredRecords (handleSearch s t) = s.allIcons.filter (matchesSearch t) ∧
    (filteredRecords (handleSearch s t)).Sublist s.allIcons ∧
    handleSearch (handleSearch s t) t = handleSearch s t ∧
    filteredRecords (handleSearch s []) = s.allIcons := by
  refine ⟨rfl, filteredRecords_handleSearch s t, ?_, rfl, ?_⟩
  · rw [filteredRecords_handleSearch s t]
    exact List.filter_sublist s.allIcons
  · rw [filteredRecords_handleSearch s []]
    simp [List.filter_eq_self, matchesSearch_nil]

theorem length_mapWithIndex {α : Type} (f : Nat → α → α) :
    ∀ (k : Nat) (l : List α), (mapWithIndex f k l).length = l.length := by
  intro k l
  induction l generalizing k with
  | nil => rfl
  | cons a rest ih => simp [mapWithIndex, ih]

theorem getD_mapWithIndex {α : Type} (f : Nat → α → α) (d : α) :
    ∀ (l : List α) (k j : Nat), j < l.length →
      (mapWithIndex f k l).getD j d = f (k + j) (l.getD j d) := by
  intro l
  induction l with
  | nil => intro k j h; simp at h
  | cons a rest ih =>
    intro k j h
    cases j with
    | zero => simp [mapWithIndex]
    | succ j2 =>
      simp only [mapWithIndex, List.getD_cons_succ]
      rw [ih (k + 1) j2 (by simpa using h)]
      have heq : k + 1 + j2 = k + (j2 + 1) := by omega
      rw [heq]

theorem startEditing_length (s : ListState) (i : Nat) :
    (startEditing s i).allIcons.length = s.allIcons.length := by
  unfold startEditing
  simp [length_mapWithIndex]

theorem startEditing_isEditing (s : ListState) (i j : Nat) (hj : j < s.allIcons.length) :
    ((startEditing s i).allIcons.getD j defRec).isEditing =
      (if j = i then true
        else if j ∈ s.filtered then false
        else (s.allIcons.getD j defRec).isEditing) := by
  unfold startEditing
  simp only []
  rw [getD_mapWithIndex _ defRec _ 0 j (by rw [length_mapWithIndex]; exact hj)]
  rw [getD_mapWithIndex _ defRec _ 0 j hj]
  by_cases h1 : j = i <;> by_cases h2 : j ∈ s.filtered <;> simp [h1, h2]

theorem countEditing_eq_range (l : List IconRecord) :
    countEditing l =
      ((List.range l.length).filter (fun j => (l.getD j defRec).isEditing)).length := by
  unfold countEditing
  conv_lhs => rw [← range_map_getD l defRec]
  rw [← map_filter_comp (fun j => l.getD j defRec) (fun r => r.isEditing)]
  rw [List.length_map]

theorem filter_range_single : ∀ n i : Nat, i < n →
    (List.range n).filter (fun j => decide (j = i)) = [i] := by
  intro n
  induction n with
  | zero => intro i h; omega
  | succ m ih =>
    intro i h
    rw [List.range_succ, List.filter_append]
    by_cases hi : i < m
    · rw [ih i hi]
      have h2 : List.filter (fun j => decide (j = i)) [m] = [] := by
        simp
        omega
      rw [h2, List.append_nil]
    · have him : i = m := by omega
      subst him
      have h1 : List.filter (fun j => decide (j = i)) (List.range i) = [] := by
        rw [List.filter_eq_nil_iff]
        intro a ha
        simp at ha ⊢
        omega
      rw [h1]
      simp

/-- C1 (amended): `startEditing` clears the editing flag only of records in
the current *filtered* view.  Hence: (a) when every record with an open edit
is visible in the filtered view (in particular when no search has hidden an
editing record), a `beginEdit` leaves exactly one record of the whole
collection with `editing = true`; (b) after `beginEdit(recordA)` followed by
`beginEdit(recordB)` with `recordA` still in the filtered view,
`recordA.editing = false` and `recordB.editing = true`.  With a search
interleaved between the two `beginEdit` calls a hidden record can keep
`editing = true`, so the canonical collection can contain two open edits
(see the counterexample). -/
theorem startEditing_amended (s : ListState) (i iA iB : Nat)
    (hi : i < s.allIcons.length)
    (hvis : ∀ j, j < s.allIcons.length →
      (s.allIcons.getD j defRec).isEditing = true → j ∈ s.filtered)
    (hA : iA ∈ s.filtered) (hAlen : iA < s.allIcons.length)
    (hBlen : iB < s.allIcons.length) (hAB : iA ≠ iB) :
    countEditing (startEditing s i).allIcons = 1 ∧
    ((startEditing (startEditing s iA) iB).allIcons.getD iA defRec).isEditing = false ∧
    ((startEditing (startEditing s iA) iB).allIcons.getD iB defRec).isEditing = true := by
  refine ⟨?_, ?_, ?_⟩
  · rw [countEditing_eq_range, startEditing_length]
    have hcong : ∀ j ∈ List.range s.allIcons.length,
        ((startEditing s i).allIcons.getD j defRec).isEditing = decide (j = i) := by
      intro j hj
      have hjn : j < s.allIcons.length := List.mem_range.mp hj
      rw [startEditing_isEditing s i j hjn]
      by_cases hji : j = i
      · simp [hji]
      · simp only [hji, if_false, decide_eq_false hji]
        by_cases hjf : j ∈ s.filtered
        · simp [hjf]
        · simp only [hjf, if_false]
          cases he : (s.allIcons.getD j defRec).isEditing with
          | false => rfl
          | true => exact absurd (hvis j hjn he) hjf
    rw [List.filter_congr hcong, filter_range_single _ i hi]
    rfl
  · have hlen1 : iA < (startEditing s iA).allIcons.length := by
      rw [startEditing_length]; exact hAlen
    rw [startEditing_isEditing (startEditing s iA) iB iA hlen1]
    have hfilt : (startEditing s iA).filtered = s.filtered := rfl
    rw [hfilt]
    simp [hAB, hA]
  · have hlen1 : iB < (startEditing s iA).allIcons.length := by
      rw [startEditing_length]; exact hBlen
    rw [startEditing_isEditing (startEditing s iA) iB iB hlen1]
    simp

/-- C1 (witness for the amended theorem): on the concrete two-record
collection with both records visible, `beginEdit 0` leaves exactly one open
edit, and `beginEdit 0` followed by `beginEdit 1` leaves record 0 closed and
record 1 open. -/
theorem startEditing_amended_witness :
    countEditing (startEditing twoIconState 0).allIcons = 1 ∧
    ((startEditing (startEditing twoIconState 0) 1).allIcons.getD 0 defRec).isEditing = false ∧
    ((startEditing (startEditing twoIconState 0) 1).allIcons.getD 1 defRec).isEditing = true :=
  startEditing_amended twoIconState 0 0 1 (by decide) (by decide) (by decide)
    (by decide) (by decide) (by decide)

/-- C1 (counterexample to the claim as stated): beginning an edit on record 0,
searching for "b" (which hides record 0), then beginning an edit on record 1
leaves TWO records of the collection with `editing = true` — `startEditing`
only clears the filtered view, so the at-most-one-open-edit invariant fails
under beginEdit/search interleavings. -/
theorem startEditing_counterexample :
    countEditing ((startEditing (handleSearch (startEditing twoIconState 0) ['b']) 1)).allIcons
      = 2 := by decide

/-- C9 (counterexample to the claim as stated): the live `storageUtil.ts`
implementation of `getSafeStorageKey` does NOT delete the space and `!` of
`"My Font!.ttf"`: it substitutes underscores, so the key differs from the
prefix concatenated with the deletion-sanitised name `"MyFont.ttf"`. -/
theorem getSafeStorageKey_myfont_counterexample :
    getSafeStorageKey "My Font!.ttf".data ≠ storageFontDatasKey ++ "MyFont.ttf".data := by
  decide

/-- C9 (amended): on `"My Font!.ttf"` the `storageUtil.ts` codec replaces the
space and `!` with underscores, yielding the prefixed key
`"font-icons-My_Font_.ttf"` with no truncation, while the deletion-variant
revision local to `icon-list.vue` removes them, yielding
`"font-icons-MyFont.ttf"` with no truncation. -/
theorem getSafeStorageKey_myfont :
    getSafeStorageKey "My Font!.ttf".data = "font-icons-My_Font_.ttf".data ∧
    getSafeStorageKeyDel "My Font!.ttf".data = "font-icons-MyFont.ttf".data := by
  exact ⟨by decide, by decide⟩

theorem digitVal_digitChar {d : Nat} (h : d < 10) : digitVal (digitChar d) = d := by
  interval_cases d <;> decide

theorem isDigitCh_digitChar {d : Nat} (h : d < 10) : isDigitCh (digitChar d) = true := by
  interval_cases d <;> decide

theorem natToCharsAux_fuel : ∀ (fuel1 fuel2 n : Nat), n < fuel1 → n < fuel2 →
    natToCharsAux fuel1 n = natToCharsAux fuel2 n := by
  intro fuel1
  induction fuel1 with
  | zero => intro fuel2 n h1; omega
  | succ f1 ih =>
    intro fuel2 n h1 h2
    match fuel2 with
    | 0 => omega
    | f2 + 1 =>
      simp only [natToCharsAux]
      by_cases h : n < 10
      · simp [h]
      · simp only [h, if_false]
        rw [ih f2 (n / 10) (by omega) (by omega)]

theorem natToChars_ne_nil (n : Nat) : natToChars n ≠ [] := by
  unfold natToChars natToCharsAux
  by_cases h : n < 10 <;> simp [h]

theorem natToChars_unfold (n : Nat) :
    natToChars n = if n < 10 then [digitChar n]
      else natToChars (n / 10) ++ [digitChar (n % 10)] := by
  by_cases h : n < 10
  · rw [if_pos h]
    unfold natToChars
    simp [natToCharsAux, h]
  · rw [if_neg h]
    show natToCharsAux (n + 1) n = natToCharsAux (n / 10 + 1) (n / 10) ++ [digitChar (n % 10)]
    conv_lhs => rw [natToCharsAux]
    rw [if_neg h]
    rw [natToCharsAux_fuel n (n / 10 + 1) (n / 10) (by omega) (by omega)]

theorem natToChars_digits (n : Nat) : ∀ c ∈ natToChars n, isDigitCh c = true := by
  induction n using Nat.strong_induction_on with
  | _ n ih =>
    intro c hc
    rw [natToChars_unfold] at hc
    by_cases h : n < 10
    · rw [if_pos h] at hc
      simp at hc
      subst hc
      exact isDigitCh_digitChar h
    · rw [if_neg h] at hc
      rcases List.mem_append.mp hc with h2 | h2
      · exact ih (n / 10) (by omega) c h2
      · simp at h2
        subst h2
        exact isDigitCh_digitChar (Nat.mod_lt _ (by omega))

theorem takeDigits_split (ds : Str) (hds : ∀ c ∈ ds, isDigitCh c = true) :
    ∀ r : Str, headNonDigit r → takeDigits (ds ++ r) = (ds, r) := by
  induction ds with
  | nil =>
    intro r hr
    match r with
    | [] => rfl
    | c :: cs =>
      simp only [List.nil_append, takeDigits]
      rw [hr]
      simp
  | cons d ds2 ih =>
    intro r hr
    simp only [List.cons_append, takeDigits]
    rw [hds d (by simp)]
    simp only [if_true, List.append_eq]
    rw [ih (fun c hc => hds c (by simp [hc])) r hr]

theorem foldl_natToChars (n : Nat) :
    ∀ a : Nat, (natToChars n).foldl (fun x c => x * 10 + digitVal c) a =
      a * 10 ^ (natToChars n).length + n := by
  induction n using Nat.strong_induction_on with
  | _ n ih =>
    intro a
    rw [natToChars_unfold]
    by_cases h : n < 10
    · simp [h, List.foldl, digitVal_digitChar h]
    · rw [if_neg h, List.foldl_append, ih (n / 10) (by omega) a]
      simp only [List.foldl, List.length_append, List.length_cons, List.length_nil]
      rw [digitVal_digitChar (Nat.mod_lt _ (by omega))]
      rw [pow_succ]
      have hdm : n / 10 * 10 + n % 10 = n := by omega
      ring_nf
      omega

theorem decodeDigits_natToChars (n : Nat) : decodeDigits (natToChars n) = n := by
  unfold decodeDigits
  rw [foldl_natToChars n 0]
  simp

theorem parseNatCh_encode (n : Nat) (r : Str) (hr : headNonDigit r) :
    parseNatCh (natToChars n ++ r) = some (n, r) := by
  unfold parseNatCh
  rw [takeDigits_split (natToChars n) (natToChars_digits n) r hr]
  simp [natToChars_ne_nil n, decodeDigits_natToChars n]

theorem psb_quote (X : Str) : parseStrBody ('\\' :: '\"' :: X) =
    (parseStrBody X).map (fun p => ('\"' :: p.1, p.2)) := by
  rw [parseStrBody.eq_def]
  simp

theorem psb_backslash (X : Str) : parseStrBody ('\\' :: '\\' :: X) =
    (parseStrBody X).map (fun p => ('\\' :: p.1, p.2)) := by
  rw [parseStrBody.eq_def]
  simp

theorem psb_b (X : Str) : parseStrBody ('\\' :: 'b' :: X) =
    (parseStrBody X).map (fun p => ('\x08' :: p.1, p.2)) := by
  rw [parseStrBody.eq_def]
  simp

theorem psb_t (X : Str) : parseStrBody ('\\' :: 't' :: X) =
    (parseStrBody X).map (fun p => ('\t' :: p.1, p.2)) := by
  rw [parseStrBody.eq_def]
  simp

theorem psb_n (X : Str) : parseStrBody ('\\' :: 'n' :: X) =
    (parseStrBody X).map (fun p => ('\n' :: p.1, p.2)) := by
  rw [parseStrBody.eq_def]
  simp

theorem psb_f (X : Str) : parseStrBody ('\\' :: 'f' :: X) =
    (parseStrBody X).map (fun p => ('\x0c' :: p.1, p.2)) := by
  rw [parseStrBody.eq_def]
  simp

theorem psb_r (X : Str) : parseStrBody ('\\' :: 'r' :: X) =
    (parseStrBody X).map (fun p => ('\x0d' :: p.1, p.2)) := by
  rw [parseStrBody.eq_def]
  simp

theorem psb_control (t : Nat) (ht : t < 32) (X : Str) :
    parseStrBody ('\\' :: 'u' :: '0' :: '0' ::
        hexDigitChar (t / 16) :: hexDigitChar (t % 16) :: X) =
      (parseStrBody X).map (fun p => (Char.ofNat t :: p.1, p.2)) := by
  interval_cases t <;> (rw [parseStrBody.eq_def]; simp [hexVal, hexDigitChar])

theorem parseStrBody_escape (s : Str) : ∀ rest : Str,
    parseStrBody (escapeStr s ++ '\"' :: rest) = some (s, rest) := by
  induction s with
  | nil =>
    intro rest
    rw [show escapeStr [] ++ '\"' :: rest = '\"' :: rest from rfl]
    rw [parseStrBody.eq_def]
    simp
  | cons c s2 ih =>
    intro rest
    rw [show escapeStr (c :: s2) = escapeChar c ++ escapeStr s2 from rfl, List.append_assoc]
    by_cases h1 : c = '\"'
    · subst h1
      rw [show escapeChar '\"' = ['\\', '\"'] from rfl]
      simp only [List.cons_append, List.nil_append]
      rw [psb_quote, ih rest]
      rfl
    · by_cases h2 : c = '\\'
      · subst h2
        rw [show escapeChar '\\' = ['\\', '\\'] from rfl]
        simp only [List.cons_append, List.nil_append]
        rw [psb_backslash, ih rest]
        rfl
      · by_cases h3 : c.toNat = 8
        · have hc : Char.ofNat 8 = c := by rw [← h3]; exact Char.ofNat_toNat c
          have he : escapeChar c = ['\\', 'b'] := by simp [escapeChar, h1, h2, h3]
          rw [he]
          simp only [List.cons_append, List.nil_append]
          rw [psb_b, ih rest, ← hc]
          rfl
        · by_cases h4 : c.toNat = 9
          · have hc : Char.ofNat 9 = c := by rw [← h4]; exact Char.ofNat_toNat c
            have he : escapeChar c = ['\\', 't'] := by simp [escapeChar, h1, h2, h3, h4]
            rw [he]
            simp only [List.cons_append, List.nil_append]
            rw [psb_t, ih rest, ← hc]
            rfl
          · by_cases h5 : c.toNat = 10
            · have hc : Char.ofNat 10 = c := by rw [← h5]; exact Char.ofNat_toNat c
              have he : escapeChar c = ['\\', 'n'] := by
                simp [escapeChar, h1, h2, h3, h4, h5]
              rw [he]
              simp only [List.cons_append, List.nil_append]
              rw [psb_n, ih rest, ← hc]
              rfl
            · by_cases h6 : c.toNat = 12
              · have hc : Char.ofNat 12 = c := by rw [← h6]; exact Char.ofNat_toNat c
                have he : escapeChar c = ['\\', 'f'] := by
                  simp [escapeChar, h1, h2, h3, h4, h5, h6]
                rw [he]
                simp only [List.cons_append, List.nil_append]
                rw [psb_f, ih rest, ← hc]
                rfl
              · by_cases h7 : c.toNat = 13
                · have hc : Char.ofNat 13 = c := by rw [← h7]; exact Char.ofNat_toNat c
                  have he : escapeChar c = ['\\', 'r'] := by
                    simp [escapeChar, h1, h2, h3, h4, h5, h6, h7]
                  rw [he]
                  simp only [List.cons_append, List.nil_append]
                  rw [psb_r, ih rest, ← hc]
                  rfl
                · by_cases h8 : c.toNat < 32
                  · have he : escapeChar c = ['\\', 'u', '0', '0',
                        hexDigitChar (c.toNat / 16), hexDigitChar (c.toNat % 16)] := by
                      simp [escapeChar, h1, h2, h3, h4, h5, h6, h7, h8]
                    rw [he]
                    simp only [List.cons_append, List.nil_append]
                    rw [psb_control c.toNat h8, ih rest, Char.ofNat_toNat]
                    rfl
                  · have he : escapeChar c = [c] := by
                      simp [escapeChar, h1, h2, h3, h4, h5, h6, h7, h8]
                    rw [he]
                    simp only [List.cons_append, List.nil_append]
                    rw [parseStrBody.eq_def]
                    simp [h1, h2, ih]

theorem expectChars_append (p r : Str) : expectChars p (p ++ r) = some r := by
  induction p with
  | nil => rfl
  | cons c cs ih => simp [expectChars, ih]

theorem hnd_tokIconName (X : Str) : headNonDigit (tokIconName ++ X) := by
  show isDigitCh ',' = false
  decide

theorem parseNatCh_tok (n : Nat) (X : Str) :
    parseNatCh (natToChars n ++ (tokIconName ++ X)) = some (n, tokIconName ++ X) :=
  parseNatCh_encode n _ (hnd_tokIconName X)

theorem parseBool_encode (b : Bool) (r : Str) :
    parseBoolCh (encBool b ++ r) = some (b, r) := by
  cases b
  · have h1 : expectChars "true".data ("false".data ++ r) = none := rfl
    unfold parseBoolCh encBool
    simp only [Bool.false_eq_true, if_false, h1]
    rw [expectChars_append]
  · unfold parseBoolCh encBool
    simp only [if_true]
    rw [expectChars_append]

theorem parseRecord_encode (r : IconRecord) (tail : Str) :
    parseRecord (encodeRecord r ++ tail) = some (r, tail) := by
  obtain ⟨u, nm, vb, sp, b, en⟩ := r
  unfold parseRecord encodeRecord
  simp only [List.append_assoc, List.cons_append]
  simp only [expectChars_append, parseNatCh_tok, parseStrBody_escape, parseBool_encode]

theorem encodeRest_length (rs : List IconRecord) :
    rs.length + 1 ≤ (encodeRest rs).length := by
  induction rs with
  | nil => simp [encodeRest]
  | cons r rs2 ih =>
    simp only [encodeRest, List.length_cons, List.length_append]
    omega

theorem parseRestF_encode : ∀ (rs : List IconRecord) (fuel : Nat) (tail : Str),
    rs.length < fuel → parseRestF fuel (encodeRest rs ++ tail) = some (rs, tail) := by
  intro rs
  induction rs with
  | nil =>
    intro fuel tail h
    match fuel with
    | 0 => omega
    | f + 1 =>
      show parseRestF (f + 1) (']' :: tail) = some ([], tail)
      simp [parseRestF]
  | cons r rs2 ih =>
    intro fuel tail h
    match fuel with
    | 0 => omega
    | f + 1 =>
      show parseRestF (f + 1) ((',' :: (encodeRecord r ++ encodeRest rs2)) ++ tail) = _
      simp only [List.cons_append, List.append_assoc]
      have hih := ih f tail (by simp at h; omega)
      simp [parseRestF, parseRecord_encode, hih]

theorem parseIcons_encode (icons : List IconRecord) :
    parseIcons (encodeIcons icons) = some icons := by
  cases icons with
  | nil => rfl
  | cons r rs =>
    obtain ⟨Y, hY⟩ : ∃ Y, encodeRecord r ++ encodeRest rs = '\x7b' :: Y := ⟨_, rfl⟩
    have hrec : parseRecord ('\x7b' :: Y) = some (r, encodeRest rs) := by
      rw [← hY]
      exact parseRecord_encode r _
    have hrest : parseRestF ((encodeRest rs).length + 1) (encodeRest rs) = some (rs, []) := by
      have h2 := parseRestF_encode rs ((encodeRest rs).length + 1) []
        (by have := encodeRest_length rs; omega)
      rwa [List.append_nil] at h2
    show parseIcons ('[' :: (encodeRecord r ++ encodeRest rs)) = some (r :: rs)
    rw [hY, parseIcons.eq_def]
    simp [hrec, hrest]

theorem lsGet_set_self (st : Storage) (k v : Str) : lsGet (lsSet st k v) k = some v := by
  simp [lsSet, lsGet]

theorem encodeIcons_ne_nil (icons : List IconRecord) : encodeIcons icons ≠ [] := by
  cases icons <;> simp [encodeIcons]

/-- C2: saving an icon collection under a filename and immediately loading the
same filename (no intervening write) returns a structurally equal collection —
the JSON serialisation round-trip is the identity on the records, for every
filename and every record list (arbitrary names, including characters needing
JSON escaping). -/
theorem saveFontData_getFontData (st : Storage) (f : Str) (icons : List IconRecord) :
    getFontData (saveFontData st f icons) f = icons := by
  unfold getFontData saveFontData
  rw [lsGet_set_self]
  simp [encodeIcons_ne_nil icons, parseIcons_encode]

/-- C8: `getFontData` returns the empty list when the derived key is absent
from storage and when the stored value fails to parse; being a total
function, it never propagates an exception to the caller. -/
theorem getFontData_degrades (st : Storage) (f : Str) :
    (lsGet st (getSafeStorageKey f) = none → getFontData st f = []) ∧
    (∀ v, lsGet st (getSafeStorageKey f) = some v → parseIcons v = none →
      getFontData st f = []) := by
  constructor
  · intro h
    unfold getFontData
    rw [h]
  · intro v hv hp
    unfold getFontData
    rw [hv]
    by_cases hve : v = []
    · simp [hve]
    · simp [hve, hp]

/-- C8 (witness): an empty storage and a storage holding `"not json"` under
the derived key both make `getFontData "a.ttf"` return the empty list. -/
theorem getFontData_degrades_witness :
    getFontData lsEmpty "a.ttf".data = [] ∧ getFontData junkStore "a.ttf".data = [] :=
  ⟨(getFontData_degrades lsEmpty "a.ttf".data).1 rfl,
   (getFontData_degrades junkStore "a.ttf".data).2 "not json".data (by decide) (by decide)⟩

theorem encodeStrRest_length (ss : List Str) :
    ss.length + 1 ≤ (encodeStrRest ss).length := by
  induction ss with
  | nil => simp [encodeStrRest]
  | cons s ss2 ih =>
    simp only [encodeStrRest, List.length_cons, List.length_append]
    omega

theorem parseStrRestF_encode : ∀ (ss : List Str) (fuel : Nat) (tail : Str),
    ss.length < fuel → parseStrRestF fuel (encodeStrRest ss ++ tail) = some (ss, tail) := by
  intro ss
  induction ss with
  | nil =>
    intro fuel tail h
    match fuel with
    | 0 => omega
    | f + 1 =>
      show parseStrRestF (f + 1) (']' :: tail) = some ([], tail)
      simp [parseStrRestF]
  | cons s ss2 ih =>
    intro fuel tail h
    match fuel with
    | 0 => omega
    | f + 1 =>
      show parseStrRestF (f + 1)
        ((',' :: ('\"' :: (escapeStr s ++ '\"' :: encodeStrRest ss2))) ++ tail) = _
      simp only [List.cons_append, List.append_assoc]
      have hih := ih f tail (by simp at h; omega)
      simp [parseStrRestF, parseStrBody_escape, hih]

theorem parseStrArr_encode (names : List Str) :
    parseStrArr (encodeStrArr names) = some names := by
  cases names with
  | nil => rfl
  | cons s ss =>
    have hrest : parseStrRestF ((encodeStrRest ss).length + 1) (encodeStrRest ss) =
        some (ss, []) := by
      have h2 := parseStrRestF_encode ss ((encodeStrRest ss).length + 1) []
        (by have := encodeStrRest_length ss; omega)
      rwa [List.append_nil] at h2
    show parseStrArr ('[' :: ('\"' :: (escapeStr s ++ '\"' :: encodeStrRest ss))) =
      some (s :: ss)
    rw [parseStrArr.eq_def]
    simp [parseStrBody_escape, hrest]

theorem encodeStrArr_ne_nil (names : List Str) : encodeStrArr names ≠ [] := by
  cases names <;> simp [encodeStrArr]

theorem reg_get_set (st : Storage) (names : List Str) :
    getSavedFileNameData (lsSet st storageFileNames (encodeStrArr names)) = names := by
  unfold getSavedFileNameData
  rw [lsGet_set_self]
  simp [encodeStrArr_ne_nil names, parseStrArr_encode]

theorem lsGet_remove (st : Storage) (k k2 : Str) :
    lsGet (lsRemove st k) k2 = if k2 = k then none else lsGet st k2 := by
  induction st with
  | nil => simp [lsRemove, lsGet]
  | cons p rest ih =>
    obtain ⟨pk, pv⟩ := p
    by_cases h1 : pk = k
    · have hfilt : lsRemove ((pk, pv) :: rest) k = lsRemove rest k := by
        simp [lsRemove, List.filter_cons, h1]
      rw [hfilt, ih]
      by_cases h2 : k2 = k
      · simp [h2]
      · have hne : pk ≠ k2 := by
          rw [h1]
          exact fun hh => h2 hh.symm
        simp [h2, lsGet, hne]
    · have hfilt : lsRemove ((pk, pv) :: rest) k = (pk, pv) :: lsRemove rest k := by
        simp [lsRemove, List.filter_cons, h1]
      rw [hfilt]
      by_cases h3 : pk = k2
      · subst h3
        simp [lsGet, h1]
      · by_cases h2 : k2 = k
        · subst h2
          simp [lsGet, h1, ih]
        · simp [lsGet, h3, ih, h2]

theorem reg_lsRemove (st : Storage) (k : Str) :
    getSavedFileNameData (lsRemove st k) =
      if k = storageFileNames then [] else getSavedFileNameData st := by
  unfold getSavedFileNameData
  rw [lsGet_remove]
  by_cases h : k = storageFileNames
  · simp [h]
  · have h2 : ¬(storageFileNames = k) := fun hh => h hh.symm
    simp [h, h2]

theorem mem_eraseFirst {l : List Str} {f a : Str} (h : a ∈ eraseFirst l f) : a ∈ l := by
  induction l with
  | nil => simp [eraseFirst] at h
  | cons x xs ih =>
    by_cases hx : x = f
    · simp [eraseFirst, hx] at h
      simp [h]
    · simp [eraseFirst, hx] at h
      rcases h with h | h
      · simp [h]
      · simp [ih h]

theorem eraseFirst_nodup {l : List Str} (f : Str) (h : l.Nodup) :
    (eraseFirst l f).Nodup := by
  induction l with
  | nil => simp [eraseFirst]
  | cons x xs ih =>
    rcases List.nodup_cons.mp h with ⟨hx, hxs⟩
    by_cases hf : x = f
    · simpa [eraseFirst, hf] using hxs
    · simp only [eraseFirst, hf, if_false]
      rw [List.nodup_cons]
      exact ⟨fun hmem => hx (mem_eraseFirst hmem), ih hxs⟩

theorem regStep_nodup (st : Storage) (op : RegOp)
    (h : (getSavedFileNameData st).Nodup) :
    (getSavedFileNameData (regStep st op)).Nodup := by
  cases op with
  | add f =>
    show (getSavedFileNameData (saveFileNameData st f)).Nodup
    unfold saveFileNameData
    by_cases hf : f ∈ getSavedFileNameData st
    · simp [hf, h]
    · simp only [hf, if_false]
      rw [reg_get_set]
      simp [List.nodup_append, h, hf]
  | remove f =>
    show (getSavedFileNameData (deleteStorageData st f)).Nodup
    unfold deleteStorageData
    have hnames : (getSavedFileNameData (lsRemove st (getSafeStorageKey f))).Nodup := by
      rw [reg_lsRemove]
      by_cases hk : getSafeStorageKey f = storageFileNames <;> simp [hk, h]
    by_cases hf : f ∈ getSavedFileNameData (lsRemove st (getSafeStorageKey f))
    · simp only [hf, if_true]
      rw [reg_get_set]
      exact eraseFirst_nodup f hnames
    · simp only [hf, if_false]
      exact hnames

theorem runRegOps_nodup (ops : List RegOp) :
    ∀ st : Storage, (getSavedFileNameData st).Nodup →
      (getSavedFileNameData (runRegOps st ops)).Nodup := by
  induction ops with
  | nil => intro st h; exact h
  | cons op ops2 ih =>
    intro st h
    show (getSavedFileNameData (runRegOps (regStep st op) ops2)).Nodup
    exact ih (regStep st op) (regStep_nodup st op h)

theorem saveFileNameData_mem (st : Storage) (f : Str)
    (h : f ∈ getSavedFileNameData st) : saveFileNameData st f = st := by
  unfold saveFileNameData
  simp [h]

theorem saveFileNameData_not_mem (st : Storage) (f : Str)
    (h : f ∉ getSavedFileNameData st) : saveFileNameData st f =
      lsSet st storageFileNames (encodeStrArr (getSavedFileNameData st ++ [f])) := by
  unfold saveFileNameData
  simp [h]

/-- C7 (amended): after any sequence of registry adds (`saveFileNameData`)
and removes (`deleteStorageData`) from an empty store the registry holds no
duplicate filenames, and adding an already-present filename leaves the store
unchanged.  Removing an absent filename leaves the registry unchanged
PROVIDED the filename's derived key differs from the registry key:
`deleteStorageData "saved-file-names"` deletes the registry record itself
(see the counterexample). -/
theorem registry_amended (ops : List RegOp) (st : Storage) (f : Str) :
    (getSavedFileNameData (runRegOps lsEmpty ops)).Nodup ∧
    saveFileNameData (saveFileNameData st f) f = saveFileNameData st f ∧
    (f ∉ getSavedFileNameData st → getSafeStorageKey f ≠ storageFileNames →
      getSavedFileNameData (deleteStorageData st f) = getSavedFileNameData st) := by
  refine ⟨runRegOps_nodup ops lsEmpty (by simp [getSavedFileNameData, lsEmpty, lsGet]),
    ?_, ?_⟩
  · by_cases hf : f ∈ getSavedFileNameData st
    · rw [saveFileNameData_mem st f hf, saveFileNameData_mem st f hf]
    · rw [saveFileNameData_not_mem st f hf]
      apply saveFileNameData_mem
      rw [reg_get_set]
      simp
  · intro hf hk
    have hreg : getSavedFileNameData (lsRemove st (getSafeStorageKey f)) =
        getSavedFileNameData st := by
      rw [reg_lsRemove]
      simp [hk]
    simp only [deleteStorageData, hreg]
    rw [if_neg hf]
    exact hreg

/-- C7 (witness for the amended theorem): with the registry holding exactly
`"a.ttf"`, the invariants hold for the concrete operation sequence
`add "a.ttf"; remove "b.ttf"`, a repeated add of `"b.ttf"`, and a remove of
the absent `"b.ttf"`. -/
theorem registry_amended_witness :
    (getSavedFileNameData
      (runRegOps lsEmpty [RegOp.add "a.ttf".data, RegOp.remove "b.ttf".data])).Nodup ∧
    saveFileNameData (saveFileNameData regStore1 "b.ttf".data) "b.ttf".data =
      saveFileNameData regStore1 "b.ttf".data ∧
    getSavedFileNameData (deleteStorageData regStore1 "b.ttf".data) =
      getSavedFileNameData regStore1 := by
  have h := registry_amended [RegOp.add "a.ttf".data, RegOp.remove "b.ttf".data]
    regStore1 "b.ttf".data
  exact ⟨h.1, h.2.1, h.2.2 (by decide) (by decide)⟩

/-- C7 (counterexample to the claim as stated): removing the absent filename
`"saved-file-names"` is NOT a no-op on the registry — its derived key equals
the registry key, so `deleteStorageData` erases the whole registry. -/
theorem deleteStorageData_counterexample :
    ("saved-file-names".data ∉ getSavedFileNameData regStore1) ∧
    getSavedFileNameData (deleteStorageData regStore1 "saved-file-names".data) ≠
      getSavedFileNameData regStore1 := by decide

theorem flt_range (icons : List IconRecord) :
    filteredRecords ⟨icons, List.range icons.length⟩ = icons :=
  range_map_getD icons defRec

/-- C4 (amended): on a font/filename change the list controller (1) uses a
stored record as both canonical and filtered view — bypassing extraction —
whenever the filename is present and the stored data loads as a NON-EMPTY
list; (2) otherwise runs extraction when a font object is present and uses
its result as both views; (3) otherwise clears both views.  An existing but
empty (or unparsable) `StorageRecord` falls through to extraction, contrary
to the claim as stated (see the counterexample). -/
theorem watchEffect_amended (st : Storage) (p : FontProps) :
    (∀ f, p.filename = some f → f ≠ [] → getFontData st f ≠ [] →
      (watchEffectRun st p).allIcons = getFontData st f ∧
      filteredRecords (watchEffectRun st p) = getFontData st f) ∧
    (loadSavedIconData st p = none →
      ((∀ g, p.font = some g →
        (watchEffectRun st p).allIcons = generatorIconList (some g) ∧
        filteredRecords (watchEffectRun st p) = generatorIconList (some g)) ∧
      (p.font = none →
        (watchEffectRun st p).allIcons = [] ∧ (watchEffectRun st p).filtered = []))) := by
  constructor
  · intro f hf hne hnonempty
    have hload : loadSavedIconData st p = some (getFontData st f) := by
      simp only [loadSavedIconData, hf]
      rw [if_neg hne, if_pos]
      exact List.length_pos.mpr hnonempty
    simp only [watchEffectRun, hload]
    exact ⟨trivial, flt_range _⟩
  · intro hload
    constructor
    · intro g hg
      simp only [watchEffectRun, hload, hg]
      exact ⟨trivial, flt_range _⟩
    · intro hg
      simp only [watchEffectRun, hload, hg]
      exact ⟨trivial, trivial⟩

/-- C4 (counterexample to the claim as stated): storage holds an EXISTING
`StorageRecord` (`"[]"`) for `"a.ttf"`, yet the controller does not use it:
because the loaded list is empty, extraction runs and its (non-empty) result
becomes the views — the existing record does not bypass extraction. -/
theorem watchEffect_counterexample :
    (lsGet emptyRecStore (getSafeStorageKey "a.ttf".data)).isSome = true ∧
    (watchEffectRun emptyRecStore propsA).allIcons ≠ getFontData emptyRecStore "a.ttf".data ∧
    (watchEffectRun emptyRecStore propsA).allIcons = generatorIconList (some [glyph1]) := by
  decide

/-- C4 (witness for the amended theorem): a saved non-empty record is used as
the canonical view; with an empty stored record extraction runs; with no font
and no stored record the views are cleared. -/
theorem watchEffect_amended_witness :
    (watchEffectRun savedRecStore propsA).allIcons = getFontData savedRecStore "a.ttf".data ∧
    (watchEffectRun emptyRecStore propsA).allIcons = generatorIconList (some [glyph1]) ∧
    (watchEffectRun lsEmpty ⟨none, some "a.ttf".data⟩).allIcons = [] := by
  refine ⟨((watchEffect_amended savedRecStore propsA).1 "a.ttf".data rfl (by decide)
    (by decide)).1, ?_, ?_⟩
  · exact (((watchEffect_amended emptyRecStore propsA).2 (by decide)).1 [glyph1] rfl).1
  · exact (((watchEffect_amended lsEmpty ⟨none, some "a.ttf".data⟩).2 (by decide)).2 rfl).1

theorem buildPngEntries_eq_foldl : ∀ (icons : List IconRecord) (oks : List Bool)
    (acc : List Str),
    buildPngEntries icons oks acc = (successNames icons oks).foldl zipAdd acc := by
  intro icons
  induction icons with
  | nil => intro oks acc; cases oks <;> rfl
  | cons r rs ih =>
    intro oks acc
    cases oks with
    | nil => rfl
    | cons ok oks2 =>
      cases ok
      · simp only [buildPngEntries, successNames, if_false, Bool.false_eq_true]
        exact ih oks2 acc
      · simp only [buildPngEntries, successNames, if_true]
        rw [List.foldl_cons]
        exact ih oks2 (zipAdd acc (pngName r))

theorem foldl_zipAdd_nodup : ∀ (names acc : List Str), (acc ++ names).Nodup →
    names.foldl zipAdd acc = acc ++ names := by
  intro names
  induction names with
  | nil => intro acc h; simp
  | cons n ns ih =>
    intro acc h
    rcases List.nodup_append.mp h with ⟨h1, h2, h3⟩
    have hn : n ∉ acc := fun hmem => h3 hmem (by simp)
    rw [List.foldl_cons]
    rw [show zipAdd acc n = acc ++ [n] from by simp [zipAdd, hn]]
    rw [ih (acc ++ [n]) (by rw [List.append_assoc]; simpa using h)]
    simp

theorem foldl_zipAdd_ne_nil : ∀ (names acc : List Str), acc ≠ [] ∨ names ≠ [] →
    names.foldl zipAdd acc ≠ [] := by
  intro names
  induction names with
  | nil =>
    intro acc h
    simp only [List.foldl_nil]
    rcases h with h | h
    · exact h
    · simp at h
  | cons n ns ih =>
    intro acc h
    rw [List.foldl_cons]
    apply ih
    left
    unfold zipAdd
    by_cases hmem : n ∈ acc
    · simp only [hmem, if_true]
      exact List.ne_nil_of_mem hmem
    · simp [hmem]

theorem successNames_length : ∀ (icons : List IconRecord) (oks : List Bool),
    icons.length = oks.length →
    (successNames icons oks).length = oks.count true := by
  intro icons
  induction icons with
  | nil =>
    intro oks h
    cases oks with
    | nil => rfl
    | cons ok oks2 => simp at h
  | cons r rs ih =>
    intro oks h
    cases oks with
    | nil => simp at h
    | cons ok oks2 =>
      have h2 : rs.length = oks2.length := by simpa using h
      cases ok <;> simp [successNames, List.count_cons, ih oks2 h2]

theorem count_true_false (oks : List Bool) :
    oks.count true + oks.count false = oks.length := by
  induction oks with
  | nil => rfl
  | cons ok oks2 ih =>
    cases ok <;> simp [List.count_cons] <;> omega

theorem downloadAllPngModel_fst (icons : List IconRecord) (oks : List Bool) :
    (downloadAllPngModel icons oks).1 = buildPngEntries icons oks [] := by
  unfold downloadAllPngModel
  by_cases h : (buildPngEntries icons oks []).length = 0 <;> simp [h]

theorem downloadAllPngModel_snd (icons : List IconRecord) (oks : List Bool) :
    ((downloadAllPngModel icons oks).2 = true ↔ buildPngEntries icons oks [] ≠ []) := by
  unfold downloadAllPngModel
  by_cases h : (buildPngEntries icons oks []).length = 0
  · have he : buildPngEntries icons oks [] = [] := List.length_eq_zero.mp h
    simp [h, he]
  · have he : buildPngEntries icons oks [] ≠ [] := by
      intro hh
      exact h (by rw [hh]; rfl)
    simp [h, he]

/-- C5 (amended): in a batch PNG export where exactly one record's conversion
fails, the archive holds exactly N−1 entries PROVIDED the successful records'
entry names are pairwise distinct (JSZip keys entries by name, so duplicate
names collapse — see the counterexample); unconditionally, the export reports
success exactly when N−1 ≥ 1 (and failure when zero records converted). -/
theorem downloadAllPng_amended (icons : List IconRecord) (oks : List Bool)
    (hlen : oks.length = icons.length) (hone : oks.count false = 1) :
    ((successNames icons oks).Nodup →
      (downloadAllPngModel icons oks).1.length = icons.length - 1) ∧
    ((downloadAllPngModel icons oks).2 = true ↔ 1 ≤ icons.length - 1) := by
  have hcnt : (successNames icons oks).length = oks.count true :=
    successNames_length icons oks hlen.symm
  have hsum := count_true_false oks
  have hle := List.count_le_length false oks
  constructor
  · intro hnodup
    rw [downloadAllPngModel_fst, buildPngEntries_eq_foldl]
    rw [foldl_zipAdd_nodup _ [] (by simpa using hnodup)]
    simp only [List.nil_append]
    omega
  · rw [downloadAllPngModel_snd, buildPngEntries_eq_foldl]
    constructor
    · intro hne
      by_contra hlt
      have hz : oks.count true = 0 := by omega
      have hnil : successNames icons oks = [] := by
        have := hcnt.trans hz
        exact List.length_eq_zero.mp this
      rw [hnil] at hne
      exact hne rfl
    · intro hge
      apply foldl_zipAdd_ne_nil
      right
      intro hnil
      have : (successNames icons oks).length = 0 := by rw [hnil]; rfl
      omega

/-- C5 (witness for the amended theorem): two records with distinct names,
the second failing: the archive holds exactly one entry and the export
reports success. -/
theorem downloadAllPng_amended_witness :
    (downloadAllPngModel [recA, recB] [true, false]).1.length =
      ([recA, recB] : List IconRecord).length - 1 ∧
    ((downloadAllPngModel [recA, recB] [true, false]).2 = true ↔
      1 ≤ ([recA, recB] : List IconRecord).length - 1) :=
  have h := downloadAllPng_amended [recA, recB] [true, false] (by decide) (by decide)
  ⟨h.1 (by decide), h.2⟩

/-- C5 (counterexample to the claim as stated): three records of which two
share the entry name `"a.png"` and exactly one (the third) fails conversion:
the archive holds 1 entry, not N−1 = 2, because JSZip overwrote the
duplicate-named entry. -/
theorem downloadAllPng_counterexample :
    (([true, true, false] : List Bool).count false = 1) ∧
    ([true, true, false] : List Bool).length = dupIcons.length ∧
    (downloadAllPngModel dupIcons [true, true, false]).1.length ≠ dupIcons.length - 1 := by
  decide

/-- C10: `openModal` resets the transform state (rotation 0, scale 1, offset
(0,0)) but leaves the grid-visibility flag and the applied fill colour
untouched; both persist across successive sessions over different records
(shown by a second `openModal` after toggling the grid and recolouring). -/
theorem openModal_frame (s : DetailState) (icon icon2 : IconRecord) (c : Str) :
    (openModal s icon).rotationAngle = 0 ∧
    (openModal s icon).scaleFactor = 1 ∧
    (openModal s icon).offsetX = 0 ∧
    (openModal s icon).offsetY = 0 ∧
    (openModal s icon).isGridVisible = s.isGridVisible ∧
    (openModal s icon).fillStyle = s.fillStyle ∧
    (openModal (updateColor (toggleGridVisibility (openModal s icon)) c) icon2).isGridVisible
      = !s.isGridVisible ∧
    (openModal (updateColor (toggleGridVisibility (openModal s icon)) c) icon2).fillStyle = c ∧
    (openModal (updateColor (toggleGridVisibility (openModal s icon)) c) icon2).rotationAngle
      = 0 ∧
    (openModal (updateColor (toggleGridVisibility (openModal s icon)) c) icon2).scaleFactor
      = 1 :=
  ⟨rfl, rfl, rfl, rfl, rfl, rfl, rfl, rfl, rfl, rfl⟩
